import Mathlib

/-!
Shallow embedding of the ParrisRV listing scraper (`app.py`) and proofs about
its record pipeline.  Python strings are modelled as Lean `String`s (sequences
of code points); pure Python helpers are translated function by function, and
the browser-driven parts (Playwright page evaluation, BeautifulSoup document
traversal, the detail-page parser) are abstracted as explicit oracle
parameters, so that every claim about the surrounding logic is a statement
about total Lean functions.
-/

set_option maxRecDepth 10000

/-! ## Python string primitives -/

/-- Whitespace characters recognised by Python `str.strip`, `str.split()` and
the regex class in the strings this program manipulates. -/
def isPySpace (c : Char) : Bool :=
  c == ' ' || c == '\t' || c == '\n' || c == '\r' || c == '\u000b' ||
    c == '\u000c' || c == '\u00A0'

/-- ASCII lowercasing, as used by `str.lower()` on the ASCII text this
program compares. -/
def pyLowerChar (c : Char) : Char :=
  if 'A' ≤ c ∧ c ≤ 'Z' then Char.ofNat (c.toNat + 32) else c

/-- Lowercase a character list. -/
def lowerList (l : List Char) : List Char := l.map pyLowerChar

/-- Python `str.lower()`. -/
def lowerStr (s : String) : String := ⟨lowerList s.data⟩

/-- Leading-whitespace removal (`str.lstrip()` over a char list). -/
def stripLead (l : List Char) : List Char := l.dropWhile isPySpace

/-- Python `str.strip()` over a char list: drop whitespace at both ends. -/
def pyStripList (l : List Char) : List Char :=
  ((stripLead ((stripLead l).reverse)).reverse)

/-- Python `str.strip()`. -/
def pyStrip (s : String) : String := ⟨pyStripList s.data⟩

/-- Boolean test that `pat` occurs at the head of `l` (anchored match). -/
def leadsWith : List Char → List Char → Bool
  | [], _ => true
  | _ :: _, [] => false
  | a :: as, b :: bs => a == b && leadsWith as bs

/-- Python substring containment `pat in l` over char lists. -/
def hasSub (pat : List Char) : List Char → Bool
  | [] => leadsWith pat []
  | c :: rest => leadsWith pat (c :: rest) || hasSub pat rest

/-- Python `pat in s` on strings. -/
def hasSubStr (pat s : String) : Bool := hasSub pat.data s.data

/-- Suffix test over char lists (used for the `$`-anchored image regex). -/
def endsList (pat l : List Char) : Bool := leadsWith pat.reverse l.reverse

/-- Python `s.split(sep)` for a one-character separator: never returns an
empty list and keeps empty fields. -/
def splitOnChar (sep : Char) : List Char → List (List Char)
  | [] => [[]]
  | c :: r =>
    if c == sep then [] :: splitOnChar sep r
    else
      match splitOnChar sep r with
      | h :: t => (c :: h) :: t
      | [] => [[c]]

/-- Python whitespace `s.split()`: split on whitespace runs, dropping empty
fields.  The `Nat` fuel is always instantiated with the list length. -/
def splitWsGo : Nat → List Char → List (List Char)
  | 0, _ => []
  | _, [] => []
  | fuel + 1, c :: r =>
    if isPySpace c then splitWsGo fuel (r.dropWhile isPySpace)
    else (c :: r.takeWhile (fun d => !isPySpace d)) ::
      splitWsGo fuel (r.dropWhile (fun d => !isPySpace d))

/-- Python whitespace `s.split()` over a char list. -/
def splitWsList (l : List Char) : List (List Char) := splitWsGo l.length l

/-- Numeric value of a run of ASCII digits. -/
def natOfDigits (l : List Char) : Nat :=
  l.foldl (fun n c => n * 10 + (c.toNat - 48)) 0

/-- Collapse every whitespace run to a single space, the effect of
`re.sub(r"\s+", " ", t)`.  Fuel is instantiated with the list length. -/
def collapseWsGo : Nat → List Char → List Char
  | 0, _ => []
  | _, [] => []
  | fuel + 1, c :: r =>
    if isPySpace c then ' ' :: collapseWsGo fuel (r.dropWhile isPySpace)
    else c :: collapseWsGo fuel r

/-- `clean_text` from app.py: `re.sub(r"\s+", " ", t or "").strip()`. -/
def clean_text (s : String) : String :=
  ⟨pyStripList (collapseWsGo s.data.length s.data)⟩

/-! ## Helpers from app.py -/

/-- Model of Python `html.unescape` restricted to the standard named and
numeric entities that occur in this site's URLs; any other `&` is kept
verbatim, as `html.unescape` keeps unknown entity text. -/
def htmlUnescape : List Char → List Char
  | [] => []
  | '&' :: 'a' :: 'm' :: 'p' :: ';' :: rest => '&' :: htmlUnescape rest
  | '&' :: 'l' :: 't' :: ';' :: rest => '<' :: htmlUnescape rest
  | '&' :: 'g' :: 't' :: ';' :: rest => '>' :: htmlUnescape rest
  | '&' :: 'q' :: 'u' :: 'o' :: 't' :: ';' :: rest => '"' :: htmlUnescape rest
  | '&' :: '#' :: '3' :: '9' :: ';' :: rest => '\'' :: htmlUnescape rest
  | '&' :: 'n' :: 'b' :: 's' :: 'p' :: ';' :: rest => ' ' :: htmlUnescape rest
  | c :: rest => c :: htmlUnescape rest

/-- Characters removed by the `rstrip(").,;")` call in `strip_fragment`. -/
def isTrailJunk (c : Char) : Bool := c == ')' || c == '.' || c == ',' || c == ';'

/-- `strip_fragment` from app.py: unescape, cut at the first `#`, strip
trailing `).,;` characters and one trailing slash. -/
def strip_fragment (u : String) : String :=
  if u = "" then ""
  else
    let l := htmlUnescape u.data
    let beforeHash := l.takeWhile (fun c => c ≠ '#')
    let r := (beforeHash.reverse.dropWhile isTrailJunk).reverse
    match r.getLast? with
    | some '/' => ⟨r.dropLast⟩
    | _ => ⟨r⟩

/-- `strip_used_prefix` from app.py: `re.sub(r'^\s*used\s*[:\-]?\s*', '', title,
flags=re.I)`.  The pattern is anchored so at most one replacement happens; if
the literal `used` is not found after the leading whitespace, the string is
returned unchanged. -/
def stripUsedMarker (s : String) : String :=
  match (stripLead s.data : List Char) with
  | u :: sC :: e :: d :: rest =>
    if pyLowerChar u == 'u' && pyLowerChar sC == 's' && pyLowerChar e == 'e'
        && pyLowerChar d == 'd' then
      let r1 := rest.dropWhile isPySpace
      let r2 := match r1 with
        | c :: r => if c == ':' || c == '-' then r else r1
        | [] => r1
      ⟨r2.dropWhile isPySpace⟩
    else s
  | _ => s

/-- `looks_like_oops_html` from app.py. -/
def looks_like_oops_html (s : String) : Bool :=
  hasSub "oops! we had a problem loading this page".data (lowerList s.data) ||
    hasSub "our support team has been notified".data (lowerList s.data)

/-! ## pick_from_srcset -/

/-- Anchored model of `re.match(r"(\S+)\s+(\d+)w", part)` on a stripped
srcset candidate: a non-space token, whitespace, a digit run and a literal
`w`.  Returns the width and the URL token on success. -/
def matchSrcItem (p : List Char) : Option (Nat × String) :=
  let tok := p.takeWhile (fun c => !isPySpace c)
  if tok.isEmpty then none
  else
    let r1 := p.dropWhile (fun c => !isPySpace c)
    let sp := r1.takeWhile isPySpace
    if sp.isEmpty then none
    else
      let r2 := r1.dropWhile isPySpace
      let ds := r2.takeWhile Char.isDigit
      if ds.isEmpty then none
      else
        match r2.dropWhile Char.isDigit with
        | 'w' :: _ => some (natOfDigits ds, ⟨tok⟩)
        | _ => none

/-- The `(width, url)` items accumulated by `pick_from_srcset`: one per
comma-separated candidate, width `0` when the width-descriptor match fails
and the candidate still has a first token. -/
def srcsetItems (srcset : String) : List (Nat × String) :=
  (splitOnChar ',' srcset.data).foldr
    (fun part acc =>
      let p := pyStripList part
      match matchSrcItem p with
      | some it => it :: acc
      | none =>
        match splitWsList p with
        | [] => acc
        | tok :: _ => (0, (⟨tok⟩ : String)) :: acc)
    []

/-- Stable insertion of `x` into a descending-by-key list, after any element
with an equal or larger key: the building block of Python's stable
`list.sort(key=..., reverse=True)`. -/
def insertDescAfterTies (key : α → Nat) (x : α) : List α → List α
  | [] => [x]
  | y :: ys => if key x ≤ key y then y :: insertDescAfterTies key x ys
               else x :: y :: ys

/-- Python's stable `list.sort(key=..., reverse=True)`. -/
def pyStableSortDesc (key : α → Nat) (l : List α) : List α :=
  l.foldl (fun acc x => insertDescAfterTies key x acc) []

/-- `pick_from_srcset` from app.py: parse candidates, sort by width
descending (stably) and return the first URL. -/
def pick_from_srcset (srcset : String) : String :=
  if srcset = "" then ""
  else
    match srcsetItems srcset with
    | [] => ""
    | its =>
      match pyStableSortDesc (fun it => it.1) its with
      | [] => ""
      | x :: _ => x.2

/-- The specification-side description of `pick_from_srcset`: the URL of the
candidate with the numerically largest width, ties resolved in favour of the
earliest candidate, and `""` when no candidate parses. -/
def pick_from_srcset_spec (srcset : String) : String :=
  match srcsetItems srcset with
  | [] => ""
  | x :: xs => (xs.foldl (fun best y => if best.1 < y.1 then y else best) x).2

/-! ## Price and payment parsing -/

/-- Characters accepted by the `[\d,]+` body of the money regex. -/
def isMoneyDigit (c : Char) : Bool := c.isDigit || c == ','

/-- Anchored model of the money pattern `\$\s*[\d,]+(?:\.\d{2})?`: on success
returns the matched text and the remainder of the input.  The regex is
deterministic here: every quantifier is greedy and no shorter choice can ever
succeed, so no backtracking is required. -/
def matchMoneyAt : List Char → Option (List Char × List Char)
  | '$' :: r1 =>
    let sp := r1.takeWhile isPySpace
    let r2 := r1.dropWhile isPySpace
    let dc := r2.takeWhile isMoneyDigit
    if dc.isEmpty then none
    else
      let r3 := r2.dropWhile isMoneyDigit
      match r3 with
      | '.' :: d1 :: d2 :: r4 =>
        if d1.isDigit && d2.isDigit then
          some ('$' :: (sp ++ dc ++ ['.', d1, d2]), r4)
        else some ('$' :: (sp ++ dc), r3)
      | _ => some ('$' :: (sp ++ dc), r3)
  | _ => none

/-- Anchored model of the lookahead `/\s*mo` (case-insensitive); the trailing
`\.?` of `/\s*mo\.?` is optional and never affects acceptance. -/
def slashMoAt : List Char → Bool
  | '/' :: r =>
    (match r.dropWhile isPySpace with
     | a :: b :: _ => pyLowerChar a == 'm' && pyLowerChar b == 'o'
     | _ => false)
  | _ => false

/-- Anchored model of `\$\s*[\d,]+(?:\.\d{2})?\s*(?=/\s*mo\.?)`: a money
match, trailing whitespace (inside the match), and the `/mo` lookahead.  As
for `matchMoneyAt`, greedy matching is exact: a shortened digit run or space
run puts a digit, comma, space or dot where the lookahead needs `/`. -/
def matchMoneyMoAt (l : List Char) : Option (List Char) :=
  match matchMoneyAt l with
  | none => none
  | some (m, rest) =>
    if slashMoAt (rest.dropWhile isPySpace) then
      some (m ++ rest.takeWhile isPySpace)
    else none

/-- `re.search` for the plain money pattern: leftmost match. -/
def searchMoneyFrom : List Char → Option (List Char × List Char)
  | [] => none
  | c :: rest =>
    match matchMoneyAt (c :: rest) with
    | some m => some m
    | none => searchMoneyFrom rest

/-- `re.search` for the money-before-`/mo` pattern: leftmost match. -/
def searchMoneyMoFrom : List Char → Option (List Char)
  | [] => none
  | c :: rest =>
    match matchMoneyMoAt (c :: rest) with
    | some m => some m
    | none => searchMoneyMoFrom rest

/-- `re.search(r"/\s*mo\.?", w, re.I)` inside a standalone window `w`. -/
def searchSlashMoIn : List Char → Bool
  | [] => false
  | c :: rest => slashMoAt (c :: rest) || searchSlashMoIn rest

/-- Python `s.replace(" ", "")`: remove space characters (only U+0020). -/
def removeSpacesStr (s : String) : String :=
  ⟨s.data.filter (fun c => c ≠ ' ')⟩

/-- `re.finditer` for the money pattern: the non-overlapping matches in
order, each with the text that follows it (used for the 20-character `/mo`
window).  Fuel is instantiated with the list length, which each step
strictly decreases. -/
def finditerMoneyGo : Nat → List Char → List (List Char × List Char)
  | 0, _ => []
  | _, [] => []
  | fuel + 1, c :: rest =>
    match matchMoneyAt (c :: rest) with
    | some (m, after) => (m, after) :: finditerMoneyGo fuel after
    | none => finditerMoneyGo fuel rest

/-- All money matches of `t` with their right contexts. -/
def finditerMoney (t : List Char) : List (List Char × List Char) :=
  finditerMoneyGo t.length t

/-- A label regex abstracted as its `re.search` result on the cleaned text:
`none` for no match, `some e` for a first match ending at offset `e`.
BeautifulSoup regexes over arbitrary patterns cannot be embedded, and
`amount_near_label` only ever uses the end offset of the first match. -/
def Lab : Type := String → Option Nat

/-- A candidate ancestor box visited by `amount_near_label`: its joined CSS
class string and its joined visible text. -/
structure PBox where
  classes : String
  text : String

/-- The class-substring blocklist of `amount_near_label`. -/
def BLOCKLIST : List String :=
  ["disclaimer", "fine", "footnote", "legal", "terms", "finance"]

/-- `is_blocklisted` from `amount_near_label`. -/
def is_blocklisted (classes : String) : Bool :=
  BLOCKLIST.any (fun b => hasSub b.data (lowerList classes.data))

/-- `_closest_amount_after_label` from app.py: clean the text, find the
label, and search for the (optionally `/mo`-anchored) money pattern after
it, with spaces removed from the result. -/
def _closest_amount_after_label (container_text : String) (lab : Lab)
    (require_mo : Bool) : String :=
  let t := clean_text container_text
  if t = "" then ""
  else
    match lab t with
    | none => ""
    | some e =>
      let restL := t.data.drop e
      if require_mo then
        match searchMoneyMoFrom restL with
        | some m => removeSpacesStr ⟨m⟩
        | none => ""
      else
        match searchMoneyFrom restL with
        | some (m, _) => removeSpacesStr ⟨m⟩
        | none => ""

/-- The sort key `to_num` of the in-box fallback, in cents.  The fallback's
candidates always carry zero or exactly two decimals, the shapes produced by
the money regex; `float()` on other shapes is not needed. -/
def toNumCents (s : String) : Nat :=
  let cs := s.data.filter (fun c => !(c == '$' || c == ','))
  let ip := cs.takeWhile (fun c => c ≠ '.')
  natOfDigits ip * 100 +
    (match cs.dropWhile (fun c => c ≠ '.') with
     | '.' :: d1 :: d2 :: _ => (d1.toNat - 48) * 10 + (d2.toNat - 48)
     | '.' :: d1 :: [] => (d1.toNat - 48) * 10
     | _ => 0)

/-- The in-box fallback candidates: every money match, kept when
`mo_suffix` is off or when `/\s*mo` occurs in the 20 characters after the
match, with spaces removed. -/
def boxCandidates (mo : Bool) (t : List Char) : List String :=
  (finditerMoney t).foldr
    (fun p acc =>
      if mo then
        if searchSlashMoIn (p.2.take 20) then removeSpacesStr ⟨p.1⟩ :: acc
        else acc
      else removeSpacesStr ⟨p.1⟩ :: acc)
    []

/-- The per-label node loop of `amount_near_label`: skip blocklisted boxes,
try the closest-amount match, then the largest-dollar fallback; `none` means
fall through to the next label. -/
def amount_for_boxes (lab : Lab) (mo : Bool) : List PBox → Option String
  | [] => none
  | b :: rest =>
    if is_blocklisted b.classes then amount_for_boxes lab mo rest
    else
      let amt := _closest_amount_after_label b.text lab mo
      if amt ≠ "" then some amt
      else
        match pyStableSortDesc toNumCents (boxCandidates mo b.text.data) with
        | [] => amount_for_boxes lab mo rest
        | v :: _ => some v

/-- `amount_near_label` from app.py over an abstracted document: for each
label, the ordered list of candidate ancestor boxes of its matching text
nodes. -/
def amount_near_label (doc : List (Lab × List PBox)) (mo : Bool) : String :=
  match doc with
  | [] => ""
  | (lab, boxes) :: rest =>
    match amount_for_boxes lab mo boxes with
    | some a => a
    | none => amount_near_label rest mo

/-! ## Row validation and assembly -/

/-- The output record assembled by `process_one`, including the two
bookkeeping columns added to every row. -/
structure Row where
  title : String
  tagline : String
  list_price : String
  payments_from : String
  image_url : String
  payments_disclaimer : String
  detail_url : String
  __status__ : String
  __error__ : String
deriving DecidableEq

/-- `is_valid_row` from app.py: the boolean verdict and the reason string. -/
def is_valid_row (row : Row) : Bool × String :=
  let title := pyStrip row.title
  let img := pyStrip row.image_url
  let pay := pyStrip row.payments_from
  let price := pyStrip row.list_price
  if title = "" || hasSub "oops".data (lowerStr title).data then
    (false, "empty_or_error_title")
  else if lowerStr title = "used" || lowerStr title = "\"\"\",\"\"used\"" then
    (false, "junk_title")
  else if 6 ≤ title.length &&
      (img ≠ "" || price ≠ "" || pay ≠ "" || pyStrip row.payments_disclaimer ≠ "") then
    (true, "")
  else if 10 ≤ title.length &&
      leadsWith "https://www.parrisrv.com/product/".data row.detail_url.data then
    (true, "weak-signals")
  else
    (false, "no_strong_signals")

/-- The fields produced by `parse_detail_html`; the parser itself walks a
BeautifulSoup DOM and is abstracted as an oracle returning these fields or
raising. -/
structure Parsed where
  title : String
  tagline : String
  list_price : String
  payments_from : String
  image_url : String
deriving DecidableEq

/-- A Python exception value as observed by `process_one`'s handler:
`type(e).__name__` and `str(e)`. -/
structure PyExc where
  name : String
  msg : String
deriving DecidableEq

/-- The abstracted `parse_detail_html`: detail URL and HTML in, parsed
fields or an exception out. -/
def ParseFun : Type := String → String → Except PyExc Parsed

/-- The URL-slug fallback record built when a detail page yields no usable
HTML: the last path segment with hyphens as spaces and the `used` marker
stripped. -/
def fallback_parsed (u : String) : Parsed :=
  { title := stripUsedMarker
      ⟨((splitOnChar '/' u.data).getLastD []).map
        (fun c => if c == '-' then ' ' else c)⟩
    tagline := "", list_price := "", payments_from := "", image_url := "" }

/-- `process_one` from app.py: parse (or fall back), merge in the
disclaimer-map entry and the detail URL, validate, and record status; an
exception from the parser produces the slug-titled error record. -/
def process_one (parse : ParseFun) (u html_text : String)
    (disc_map : List (String × String)) : Row :=
  let res := if html_text ≠ "" && !looks_like_oops_html html_text
             then parse u html_text else Except.ok (fallback_parsed u)
  match res with
  | Except.ok p =>
    let row0 : Row :=
      { title := stripUsedMarker p.title
        tagline := p.tagline
        list_price := p.list_price
        payments_from := p.payments_from
        image_url := p.image_url
        payments_disclaimer := (disc_map.lookup (strip_fragment u)).getD ""
        detail_url := u
        __status__ := "", __error__ := "" }
    let v := is_valid_row row0
    { row0 with
      __status__ := if v.1 then "ok" else "dropped"
      __error__ := if v.1 then ""
        else if v.2 ≠ "" then v.2
        else if looks_like_oops_html html_text then "oops_page" else "unknown" }
  | Except.error e =>
    { title := (fallback_parsed u).title
      tagline := "", list_price := "", payments_from := "", image_url := ""
      payments_disclaimer := (disc_map.lookup (strip_fragment u)).getD ""
      detail_url := u
      __status__ := "parse_error"
      __error__ := e.name ++ ": " ++ e.msg }

/-! ## Detail-URL collection -/

/-- Characters allowed in a URL scheme by `urllib.parse`. -/
def isSchemeChar (c : Char) : Bool :=
  c.isAlpha || c.isDigit || c == '+' || c == '-' || c == '.'

/-- Model of `urllib.parse.urlparse` restricted to the two components this
program reads: `(netloc, path)`.  A valid `scheme:` marker is removed, a
`//`-led authority becomes the netloc, and the path stops at `?` or `#`. -/
def pyUrlparse (u : String) : String × String :=
  let l := u.data
  let pre := l.takeWhile (fun c => c ≠ ':')
  let rest :=
    if pre.length < l.length && !pre.isEmpty && pre.all isSchemeChar &&
        (match pre with | c :: _ => c.isAlpha | [] => false)
    then l.drop (pre.length + 1) else l
  if leadsWith "//".data rest then
    let after2 := rest.drop 2
    let nl := after2.takeWhile (fun c => !(c == '/' || c == '?' || c == '#'))
    let after := after2.drop nl.length
    (⟨nl⟩, ⟨after.takeWhile (fun c => !(c == '?' || c == '#'))⟩)
  else
    ("", ⟨rest.takeWhile (fun c => !(c == '?' || c == '#'))⟩)

/-- The image-extension suffixes rejected by `_looks_like_product_detail`. -/
def imageSuffixes : List String := [".jpg", ".jpeg", ".png", ".webp", ".svg"]

/-- Leftmost match of `/product/used-[^/]+` in `path`: the literal followed
by at least one non-slash character, taken greedily. -/
def findUsedSeg : List Char → Option (List Char)
  | [] => none
  | c :: rest =>
    if leadsWith "/product/used-".data (c :: rest) then
      let tl := (c :: rest).drop ("/product/used-".data.length)
      let seg := tl.takeWhile (fun d => d ≠ '/')
      if seg.isEmpty then findUsedSeg rest
      else some ("/product/used-".data ++ seg)
    else findUsedSeg rest

/-- `_looks_like_product_detail` from app.py. -/
def _looks_like_product_detail (u : String) : Bool :=
  let su := strip_fragment u
  let np := pyUrlparse su
  if !hasSub "parrisrv.com".data np.1.data then false
  else
    let path := lowerList np.2.data
    if !leadsWith "/product/".data path then false
    else if !hasSub "/product/used-".data path then false
    else if imageSuffixes.any (fun sfx => endsList sfx.data path) then false
    else if path = "/product/used".data || path = "/product/used/".data then false
    else
      match findUsedSeg path with
      | none => false
      | some seg => 2 ≤ (seg.filter (fun c => c == '-')).length

/-- `_filter_detail_urls` from app.py: strip each URL, drop empties, keep
product-detail URLs; the Python `set` is modelled as an insertion-ordered
duplicate-free list (only its contents matter, the caller sorts). -/
def _filter_detail_urls (urls : List String) : List String :=
  urls.foldl
    (fun acc u =>
      let su := strip_fragment u
      if su = "" then acc
      else if _looks_like_product_detail su && !acc.contains su then acc ++ [su]
      else acc)
    []

/-- The per-page loop of `collect_detail_urls_with_playwright`: page
`pageNum` contributes the filtered URLs scraped from the rendered page (the
oracle `pages`), the union is accumulated, and the loop breaks after a page
beyond the first adds nothing new.  Fuel counts the remaining pages. -/
def collectGo (pages : Nat → List String) : Nat → Nat → List String → List String
  | 0, _, acc => acc
  | fuel + 1, pageNum, acc =>
    let filtered := _filter_detail_urls (pages pageNum)
    let acc2 := filtered.foldl (fun a u => if a.contains u then a else a ++ [u]) acc
    if pageNum > 1 && acc2.length == acc.length then acc2
    else collectGo pages fuel (pageNum + 1) acc2

/-- `collect_detail_urls_with_playwright` from app.py with the rendered
pages abstracted: accumulate filtered URLs over up to `max_pages` pages and
return them sorted (`sorted(all_urls)`). -/
def collect_detail_urls (pages : Nat → List String) (max_pages : Nat) : List String :=
  List.insertionSort (· ≤ ·) (collectGo pages max_pages 1 [])

/-! ## Detail-page fetching with retries -/

/-- `MAX_TRIES` from `fetch_detail_pages_html_with_playwright`. -/
def MAX_TRIES : Nat := 3

/-- One attempt at a URL, abstracted: the attempt number maps to either an
exception (`goto`/load failure) or the page HTML returned by
`page.content()`. -/
def FetchFun : Type := Nat → Except Unit String

/-- The per-URL attempt loop of `fetch_detail_pages_html_with_playwright`:
retry on exceptions and on OOPS/short pages while attempts remain, keep the
HTML of the attempt that breaks the loop, and record `""` when the last
attempt raises.  Fuel is instantiated with `MAX_TRIES` and bounds the
remaining attempts. -/
def fetchGo (fetch : FetchFun) : Nat → Nat → String
  | _, 0 => ""
  | attempt, fuel + 1 =>
    match fetch attempt with
    | Except.error _ =>
      if attempt == MAX_TRIES then "" else fetchGo fetch (attempt + 1) fuel
    | Except.ok h =>
      if (looks_like_oops_html h || h.length < 5000) && attempt < MAX_TRIES then
        fetchGo fetch (attempt + 1) fuel
      else h

/-- The HTML recorded for one URL after up to `MAX_TRIES` attempts. -/
def fetch_one_result (fetch : FetchFun) : String := fetchGo fetch 1 MAX_TRIES

/-- `fetch_detail_pages_html_with_playwright` from app.py with the browser
abstracted per URL and attempt: every input URL gets an entry. -/
def fetch_detail_pages_html (detail_urls : List String)
    (fetch : String → FetchFun) : List (String × String) :=
  detail_urls.map (fun u => (u, fetch_one_result (fetch u)))

/-! ## The autoscroll loop -/

/-- `min_cycles` default of `autoscroll_until_stable`. -/
def min_cycles : Nat := 5

/-- `max_loops` default of `autoscroll_until_stable`. -/
def max_loops : Nat := 200

/-- The scroll loop of `autoscroll_until_stable` with the page's link
counter abstracted as the sequence `counts`: cycle `k` reads `counts k`,
the stability counter resets on change, and the function returns the number
of cycles executed.  `last` starts at `-1`, which no count equals. -/
def scrollGo (counts : Nat → Nat) : Nat → Nat → Int → Nat → Nat
  | 0, iters, _, _ => iters
  | fuel + 1, iters, last, stable =>
    let curr := counts iters
    let stable2 := if (curr : Int) = last then stable + 1 else 0
    if min_cycles ≤ stable2 then iters + 1
    else scrollGo counts fuel (iters + 1) (curr : Int) stable2

/-- The number of scroll cycles `autoscroll_until_stable` executes for a
given sequence of link counts. -/
def autoscroll_cycles (counts : Nat → Nat) : Nat :=
  scrollGo counts max_loops 0 (-1) 0

/-! ## run_scrape -/

/-- The keep predicate of `run_scrape`:
`r.get("__status__") == "ok" or r.get("__error__") == "weak-signals"`. -/
def keepRow (r : Row) : Bool :=
  r.__status__ == "ok" || r.__error__ == "weak-signals"

/-- The column list `cols` of `run_scrape`. -/
def out_cols : List String :=
  ["title", "tagline", "list_price", "payments_from", "payments_disclaimer",
   "image_url", "detail_url", "__status__", "__error__"]

/-- The record-type columns named by the specification. -/
def record_cols : List String :=
  ["title", "tagline", "list_price", "payments_from", "payments_disclaimer",
   "image_url", "detail_url"]

/-- The cells of one output row, in `out_cols` order. -/
def rowCells (r : Row) : List String :=
  [r.title, r.tagline, r.list_price, r.payments_from, r.payments_disclaimer,
   r.image_url, r.detail_url, r.__status__, r.__error__]

/-- The assembled rows of `run_scrape`: one `process_one` call per collected
detail URL, with `html_map.get(u, "")`. -/
def run_scrape_rows (parse : ParseFun) (pages : Nat → List String)
    (max_pages : Nat) (html_map disc_map : List (String × String)) : List Row :=
  (collect_detail_urls pages max_pages).map
    (fun u => process_one parse u ((html_map.lookup u).getD "") disc_map)

/-- The kept rows of `run_scrape`. -/
def run_scrape_kept (parse : ParseFun) (pages : Nat → List String)
    (max_pages : Nat) (html_map disc_map : List (String × String)) : List Row :=
  (run_scrape_rows parse pages max_pages html_map disc_map).filter keepRow

/-- The table `run_scrape` returns, as `(columns, cell rows)`.  Pandas gives
`pd.DataFrame(records)` the key list of the records as columns; with no
records the frame has no columns at all. -/
def run_scrape_table (parse : ParseFun) (pages : Nat → List String)
    (max_pages : Nat) (html_map disc_map : List (String × String)) :
    List String × List (List String) :=
  let kept := run_scrape_kept parse pages max_pages html_map disc_map
  (if kept.isEmpty then [] else out_cols, kept.map rowCells)

/-! ## Concrete instances used by witnesses and counterexamples -/

/-- A well-formed used-unit detail URL. -/
def url0 : String := "https://www.parrisrv.com/product/used-cool-rv"

/-- A single listing page containing just `url0`. -/
def pages0 : Nat → List String := fun _ => [url0]

/-- A parser oracle returning a fixed valid record. -/
def parse0 : ParseFun := fun _ _ => Except.ok
  { title := "Cool RV 2020", tagline := "", list_price := "$9,999",
    payments_from := "", image_url := "" }

/-- An HTML map giving `url0` some non-OOPS content. -/
def hm0 : List (String × String) := [(url0, "<html>detail page</html>")]

/-- The row `run_scrape` assembles from `url0` under `parse0`. -/
def row0 : Row :=
  { title := "Cool RV 2020", tagline := "", list_price := "$9,999",
    payments_from := "", image_url := "", payments_disclaimer := "",
    detail_url := url0, __status__ := "ok", __error__ := "" }

/-- The OOPS bot-challenge marker page returned by a blocked fetch. -/
def oopsPage : String := "oops! we had a problem loading this page"

/-- First occurrence search used to instantiate a label oracle. -/
def findSubEndGo (pat : List Char) : List Char → Nat → Option Nat
  | [], _ => none
  | c :: rest, i =>
    if leadsWith pat (c :: rest) then some (i + pat.length)
    else findSubEndGo pat rest (i + 1)

/-- A concrete label oracle: first case-insensitive occurrence of `From:`. -/
def labFrom : Lab := fun t => findSubEndGo "from:".data (lowerList t.data) 0

/-- A box whose only `/mo` occurrence sits ten characters after the dollar
amount, inside the word `/more`. -/
def box9 : PBox := { classes := "", text := "From: $999 go /more info" }

/-- The document holding `box9` under the `From:` label. -/
def doc9 : List (Lab × List PBox) := [(labFrom, [box9])]

/-- The raw and cleaned texts of `doc9`. -/
def texts9 : List (List Char) := [box9.text.data, (clean_text box9.text).data]

/-- Decidable check that `r` is the space-stripped text of some money match
of `t` that the `/mo` lookahead accepts immediately (the claim's reading of
`amount_near_label`'s guarantee). -/
def immediateMoWitness (t : List Char) (r : String) : Bool :=
  (List.range (t.length + 1)).any fun i =>
    match matchMoneyMoAt (t.drop i) with
    | some m => removeSpacesStr ⟨m⟩ == r
    | none => false

/-- Proposition that `t` is the raw or cleaned text of a box of `doc`. -/
def docHasText (doc : List (Lab × List PBox)) (t : List Char) : Prop :=
  ∃ lb, lb ∈ doc ∧ ∃ b, b ∈ lb.2 ∧
    (t = b.text.data ∨ t = (clean_text b.text).data)

/-! ## Basic lemmas about the string primitives -/

theorem leadsWith_iff {t l : List Char} :
    leadsWith t l = true ↔ ∃ q, l = t ++ q := by
  induction t generalizing l with
  | nil => simp [leadsWith]
  | cons a as ih =>
    cases l with
    | nil => simp [leadsWith]
    | cons b bs =>
      simp only [leadsWith, Bool.and_eq_true, beq_iff_eq, ih, List.cons_append,
        List.cons.injEq]
      constructor
      · rintro ⟨rfl, q, rfl⟩; exact ⟨q, rfl, rfl⟩
      · rintro ⟨q, rfl, rfl⟩; exact ⟨rfl, q, rfl⟩

theorem hasSub_iff {t l : List Char} :
    hasSub t l = true ↔ ∃ p q, l = p ++ (t ++ q) := by
  induction l with
  | nil =>
    simp only [hasSub, leadsWith_iff]
    constructor
    · rintro ⟨q, h⟩; exact ⟨[], q, h⟩
    · rintro ⟨p, q, h⟩
      rcases List.append_eq_nil.mp h.symm with ⟨rfl, h2⟩
      exact ⟨q, h2.symm ▸ rfl⟩
  | cons c rest ih =>
    simp only [hasSub, Bool.or_eq_true, leadsWith_iff, ih]
    constructor
    · rintro (⟨q, h⟩ | ⟨p, q, h⟩)
      · exact ⟨[], q, by simpa using h⟩
      · exact ⟨c :: p, q, by simp [h]⟩
    · rintro ⟨p, q, h⟩
      cases p with
      | nil => exact Or.inl ⟨q, by simpa using h⟩
      | cons d p' =>
        simp only [List.cons_append, List.cons.injEq] at h
        exact Or.inr ⟨p', q, h.2⟩

theorem hasSub_reverse {t l : List Char} (h : hasSub t l = true) :
    hasSub t.reverse l.reverse = true := by
  rcases hasSub_iff.mp h with ⟨p, q, rfl⟩
  refine hasSub_iff.mpr ⟨q.reverse, p.reverse, ?_⟩
  simp

theorem pyLowerChar_of_space {c : Char} (h : isPySpace c = true) :
    pyLowerChar c = c := by
  simp only [isPySpace, Bool.or_eq_true, beq_iff_eq] at h
  rcases h with ((((((rfl | rfl) | rfl) | rfl) | rfl) | rfl) | rfl) <;> decide

theorem hasSub_map_dropWhile {t : List Char} (hne : t ≠ [])
    (hns : ∀ c ∈ t, isPySpace c = false) :
    ∀ l : List Char, hasSub t (l.map pyLowerChar) = true →
      hasSub t ((l.dropWhile isPySpace).map pyLowerChar) = true := by
  intro l
  induction l with
  | nil => simp
  | cons b bs ih =>
    intro h
    by_cases hb : isPySpace b = true
    · rw [List.dropWhile_cons_of_pos hb]
      apply ih
      simp only [List.map_cons, hasSub, Bool.or_eq_true] at h
      rcases h with h | h
      · rcases leadsWith_iff.mp h with ⟨q, hq⟩
        cases t with
        | nil => exact absurd rfl hne
        | cons c t' =>
          simp only [List.cons_append, List.cons.injEq] at hq
          have hcb : c = b := by rw [← hq.1, pyLowerChar_of_space hb]
          have := hns c (by simp)
          rw [hcb, hb] at this
          exact absurd this (by simp)
      · exact h
    · rw [List.dropWhile_cons_of_neg hb]
      exact h

theorem hasSub_lower_strip {t : List Char} (hne : t ≠ [])
    (hns : ∀ c ∈ t, isPySpace c = false) (l : List Char)
    (h : hasSub t (l.map pyLowerChar) = true) :
    hasSub t ((pyStripList l).map pyLowerChar) = true := by
  have h1 : hasSub t ((l.dropWhile isPySpace).map pyLowerChar) = true :=
    hasSub_map_dropWhile hne hns l h
  have h2 : hasSub t.reverse (((l.dropWhile isPySpace).reverse).map pyLowerChar) = true := by
    have := hasSub_reverse h1
    simpa using this
  have hne2 : t.reverse ≠ [] := by
    intro hx
    exact hne (by simpa using congrArg List.reverse hx)
  have hns2 : ∀ c ∈ t.reverse, isPySpace c = false := by
    intro c hc; exact hns c (List.mem_reverse.mp hc)
  have h3 := hasSub_map_dropWhile hne2 hns2 ((l.dropWhile isPySpace).reverse) h2
  have h4 := hasSub_reverse h3
  simp only [List.reverse_reverse] at h4
  have : ((((l.dropWhile isPySpace).reverse.dropWhile isPySpace).map pyLowerChar).reverse)
      = (pyStripList l).map pyLowerChar := by
    simp [pyStripList, stripLead]
  rwa [this] at h4

theorem length_pyStripList_le (l : List Char) :
    (pyStripList l).length ≤ l.length := by
  simp only [pyStripList, stripLead, List.length_reverse]
  calc ((l.dropWhile isPySpace).reverse.dropWhile isPySpace).length
      ≤ (l.dropWhile isPySpace).reverse.length :=
        (List.dropWhile_sublist _).length_le
    _ = (l.dropWhile isPySpace).length := by simp
    _ ≤ l.length := (List.dropWhile_sublist _).length_le

/-! ## C8: pick_from_srcset -/

theorem head_foldl_insertDesc {α : Type} (key : α → Nat) :
    ∀ (xs acc : List α) (a : α), acc.head? = some a →
      (xs.foldl (fun ac x => insertDescAfterTies key x ac) acc).head? =
        some (xs.foldl (fun b y => if key b < key y then y else b) a) := by
  intro xs
  induction xs with
  | nil => intro acc a h; simpa using h
  | cons y ys ih =>
    intro acc a h
    cases acc with
    | nil => simp at h
    | cons b acc' =>
      have hb : b = a := by simpa using h
      subst hb
      simp only [List.foldl_cons]
      apply ih
      simp only [insertDescAfterTies]
      by_cases hk : key y ≤ key b
      · rw [if_pos hk, List.head?_cons, if_neg (by omega)]
      · rw [if_neg hk, List.head?_cons, if_pos (by omega)]

/-- C8: for every srcset string, `pick_from_srcset` returns `""` exactly
when no candidate parses, and otherwise the URL of the candidate with the
numerically largest `w` width, widthless candidates counting as width 0 and
ties resolved in favour of the earliest candidate (the stable descending
sort keeps the earliest maximal element first). -/
theorem C8_pick_from_srcset_correct (s : String) :
    pick_from_srcset s = pick_from_srcset_spec s := by
  unfold pick_from_srcset pick_from_srcset_spec
  by_cases hs : s = ""
  · subst hs
    have h0 : srcsetItems "" = [] := rfl
    simp [h0]
  · rw [if_neg hs]
    cases h : srcsetItems s with
    | nil => rfl
    | cons x xs =>
      have hhead :
          (pyStableSortDesc (fun it => it.1) (x :: xs)).head? =
            some (xs.foldl
              (fun b y => if b.1 < y.1 then y else b) x) := by
        unfold pyStableSortDesc
        rw [List.foldl_cons]
        exact head_foldl_insertDesc (fun it => it.1) xs
          (insertDescAfterTies (fun it => it.1) x []) x rfl
      cases hsort : pyStableSortDesc (fun it => it.1) (x :: xs) with
      | nil => rw [hsort] at hhead; simp at hhead
      | cons z zs =>
        rw [hsort] at hhead
        simp only [List.head?_cons, Option.some.injEq] at hhead
        simp only [hsort, hhead]

/-! ## C6: the autoscroll loop -/

theorem scrollGo_le (c : Nat → Nat) :
    ∀ fuel iters last stable, scrollGo c fuel iters last stable ≤ iters + fuel := by
  intro fuel
  induction fuel with
  | zero => intro iters last stable; simp [scrollGo]
  | succ f ih =>
    intro iters last stable
    simp only [scrollGo]
    by_cases h1 : ((c iters : Int) = last)
    · rw [if_pos h1]
      by_cases h2 : min_cycles ≤ stable + 1
      · rw [if_pos h2]; omega
      · rw [if_neg h2]; exact (ih (iters + 1) _ _).trans (by omega)
    · rw [if_neg h1]
      by_cases h2 : min_cycles ≤ 0
      · rw [if_pos h2]; omega
      · rw [if_neg h2]; exact (ih (iters + 1) _ _).trans (by omega)

theorem scrollGo_streak (c : Nat → Nat) (j : Nat)
    (hj : ∀ i, i < 5 → c (j + i + 1) = c (j + i)) :
    ∀ fuel t stable, t ≤ 4 → t ≤ stable → 5 - t ≤ fuel →
      scrollGo c fuel (j + 1 + t) ((c (j + t) : Int)) stable ≤ j + 6 := by
  intro fuel
  induction fuel with
  | zero => intro t stable ht _ hf; omega
  | succ f ih =>
    intro t stable ht hs hf
    have hc : c (j + 1 + t) = c (j + t) := by
      have := hj t (by omega)
      have harith : j + t + 1 = j + 1 + t := by omega
      rwa [harith] at this
    have hcint : ((c (j + 1 + t) : Int)) = ((c (j + t) : Int)) := by
      exact_mod_cast hc
    simp only [scrollGo]
    rw [if_pos hcint]
    by_cases hexit : min_cycles ≤ stable + 1
    · rw [if_pos hexit]
      have h5 : 5 ≤ stable + 1 := hexit
      omega
    · rw [if_neg hexit]
      have h5 : ¬ 5 ≤ stable + 1 := hexit
      have ht' : t + 1 ≤ 4 := by omega
      have := ih (t + 1) (stable + 1) ht' (by omega) (by omega)
      have harith2 : j + 1 + (t + 1) = j + 1 + t + 1 := by omega
      have harith3 : j + (t + 1) = j + 1 + t := by omega
      rw [harith2, harith3] at this
      exact this

theorem scrollGo_reach (c : Nat → Nat) (j : Nat)
    (hj : ∀ i, i < 5 → c (j + i + 1) = c (j + i)) :
    ∀ fuel k last stable, k ≤ j → (1 ≤ k → last = (c (k - 1) : Int)) →
      j + 6 - k ≤ fuel → scrollGo c fuel k last stable ≤ j + 6 := by
  intro fuel
  induction fuel with
  | zero => intro k last stable hk _ hf; omega
  | succ f ih =>
    intro k last stable hk hl hf
    simp only [scrollGo]
    by_cases heq : ((c k : Int) = last)
    · rw [if_pos heq]
      by_cases hexit : min_cycles ≤ stable + 1
      · rw [if_pos hexit]; omega
      · rw [if_neg hexit]
        by_cases hkj : k + 1 ≤ j
        · exact ih (k + 1) _ _ hkj (fun _ => by simp) (by omega)
        · have hkeq : k = j := by omega
          subst hkeq
          have := scrollGo_streak c k hj f 0 (stable + 1) (by omega) (by omega)
            (by omega)
          simpa using this
    · rw [if_neg heq]
      by_cases hexit : min_cycles ≤ 0
      · rw [if_pos hexit]; omega
      · rw [if_neg hexit]
        by_cases hkj : k + 1 ≤ j
        · exact ih (k + 1) _ _ hkj (fun _ => by simp) (by omega)
        · have hkeq : k = j := by omega
          subst hkeq
          have := scrollGo_streak c k hj f 0 0 (by omega) (by omega) (by omega)
          simpa using this

/-- C6: the scroll loop always terminates after at most `max_loops = 200`
cycles, and once the link count is unchanged across `min_cycles = 5`
consecutive cycles (six equal consecutive readings starting at cycle `j`)
it stops within `j + min_cycles + 1` cycles, whatever values the page's
counter returns. -/
theorem C6_autoscroll_terminates (counts : Nat → Nat) :
    autoscroll_cycles counts ≤ max_loops ∧
      ∀ j, (∀ i, i < min_cycles → counts (j + i + 1) = counts (j + i)) →
        autoscroll_cycles counts ≤ j + min_cycles + 1 := by
  constructor
  · have := scrollGo_le counts max_loops 0 (-1) 0
    simpa [autoscroll_cycles] using this
  · intro j hj
    have hj5 : ∀ i, i < 5 → counts (j + i + 1) = counts (j + i) := hj
    show autoscroll_cycles counts ≤ j + 6
    by_cases hbig : max_loops ≤ j + 6
    · have h2 := scrollGo_le counts max_loops 0 (-1) 0
      have h3 : max_loops ≤ j + 6 := hbig
      simp only [autoscroll_cycles]
      omega
    · have h4 : ¬ (200 : Nat) ≤ j + 6 := hbig
      have := scrollGo_reach counts j hj5 max_loops 0 (-1) 0 (by omega)
        (fun h => by omega) (by show j + 6 - 0 ≤ 200; omega)
      simpa [autoscroll_cycles] using this

/-- Witness for C6 at the constant counter: exit after six cycles. -/
theorem C6_witness :
    autoscroll_cycles (fun _ => 7) ≤ max_loops ∧
      autoscroll_cycles (fun _ => 7) ≤ 0 + min_cycles + 1 :=
  ⟨(C6_autoscroll_terminates (fun _ => 7)).1,
    (C6_autoscroll_terminates (fun _ => 7)).2 0 (fun _ _ => rfl)⟩

/-! ## C5: fetch_detail_pages_html_with_playwright -/

theorem lookup_map_self {g : String → String} :
    ∀ (urls : List String) (u : String), u ∈ urls →
      (urls.map (fun x => (x, g x))).lookup u = some (g u) := by
  intro urls
  induction urls with
  | nil => intro u h; simp at h
  | cons v vs ih =>
    intro u h
    by_cases huv : u = v
    · subst huv; simp [List.lookup]
    · have : u ∈ vs := by
        rcases List.mem_cons.mp h with h1 | h1
        · exact absurd h1 huv
        · exact h1
      have hbeq : (u == v) = false := by simpa using huv
      simp only [List.map_cons, List.lookup, hbeq]
      exact ih u this

theorem fetchGo_error {f : FetchFun} {a fuel : Nat} (h : f a = Except.error ())
    (hne : a ≠ MAX_TRIES) : fetchGo f a (fuel + 1) = fetchGo f (a + 1) fuel := by
  simp [fetchGo, h, hne]

theorem fetchGo_error_last {f : FetchFun} {fuel : Nat}
    (h : f MAX_TRIES = Except.error ()) : fetchGo f MAX_TRIES (fuel + 1) = "" := by
  simp [fetchGo, h]

theorem fetchGo_congr {f g : FetchFun} (hfg : ∀ t, t ≤ MAX_TRIES → f t = g t) :
    ∀ fuel attempt, attempt + fuel ≤ MAX_TRIES + 1 →
      fetchGo f attempt fuel = fetchGo g attempt fuel := by
  intro fuel
  induction fuel with
  | zero => intro attempt _; rfl
  | succ fu ih =>
    intro attempt hle
    have ha : attempt ≤ MAX_TRIES := by
      simp only [MAX_TRIES] at hle ⊢; omega
    simp only [fetchGo, hfg attempt ha]
    cases g attempt with
    | error e =>
      by_cases hm : attempt == MAX_TRIES
      · simp [hm]
      · simp only [hm, Bool.false_eq_true, if_false]
        exact ih (attempt + 1) (by omega)
    | ok h =>
      by_cases hq : (looks_like_oops_html h || h.length < 5000) && attempt < MAX_TRIES
      · simp only [hq, if_true]
        exact ih (attempt + 1) (by omega)
      · simp [hq]

theorem fetchGo_badpage {f : FetchFun} {a fuel : Nat} {p : String}
    (h : f a = Except.ok p)
    (hbad : (looks_like_oops_html p || p.length < 5000) = true)
    (hlt : a < MAX_TRIES) :
    fetchGo f a (fuel + 1) = fetchGo f (a + 1) fuel := by
  simp [fetchGo, h, hbad, hlt]

theorem fetchGo_final_ok {f : FetchFun} {fuel : Nat} {p : String}
    (h : f MAX_TRIES = Except.ok p) : fetchGo f MAX_TRIES (fuel + 1) = p := by
  simp [fetchGo, h]

/-- C5 as amended: the fetch loop consults at most attempts `1..MAX_TRIES`
for each URL, the returned mapping has an entry for every input URL, a URL
whose every attempt raises is recorded as `""`, and when every earlier
attempt fails (an exception, an OOPS page or a too-short page) but the
final attempt returns a page — even an OOPS or too-short one — that page's
HTML is recorded instead. -/
theorem C5_fetch_behavior (urls : List String) (fetch : String → FetchFun) :
    (∀ u, u ∈ urls →
        (fetch_detail_pages_html urls fetch).lookup u =
          some (fetch_one_result (fetch u))) ∧
      (∀ f g : FetchFun, (∀ t, t ≤ MAX_TRIES → f t = g t) →
        fetch_one_result f = fetch_one_result g) ∧
      (∀ u, (∀ t, 1 ≤ t → t ≤ MAX_TRIES → fetch u t = Except.error ()) →
        fetch_one_result (fetch u) = "") ∧
      (∀ u p, (∀ t, 1 ≤ t → t < MAX_TRIES →
          fetch u t = Except.error () ∨
            ∃ q, fetch u t = Except.ok q ∧
              (looks_like_oops_html q || q.length < 5000) = true) →
        fetch u MAX_TRIES = Except.ok p →
        fetch_one_result (fetch u) = p) := by
  refine ⟨?_, ?_, ?_, ?_⟩
  · intro u hu
    exact lookup_map_self urls u hu
  · intro f g hfg
    exact fetchGo_congr hfg MAX_TRIES 1 (by simp [MAX_TRIES])
  · intro u hfail
    have e1 : fetch u 1 = Except.error () := hfail 1 (by omega) (by decide)
    have e2 : fetch u 2 = Except.error () := hfail 2 (by omega) (by decide)
    have e3 : fetch u 3 = Except.error () := hfail 3 (by omega) (by decide)
    show fetchGo (fetch u) 1 MAX_TRIES = ""
    calc fetchGo (fetch u) 1 MAX_TRIES
        = fetchGo (fetch u) 2 2 := fetchGo_error e1 (by decide)
      _ = fetchGo (fetch u) 3 1 := fetchGo_error e2 (by decide)
      _ = "" := fetchGo_error_last e3
  · intro u p hearly hfinal
    have e1 := hearly 1 (by omega) (by decide)
    have e2 := hearly 2 (by omega) (by decide)
    have step1 : fetchGo (fetch u) 1 MAX_TRIES = fetchGo (fetch u) 2 2 := by
      rcases e1 with he | ⟨q, hq, hbad⟩
      · exact fetchGo_error he (by decide)
      · exact fetchGo_badpage hq hbad (by decide)
    have step2 : fetchGo (fetch u) 2 2 = fetchGo (fetch u) 3 1 := by
      rcases e2 with he | ⟨q, hq, hbad⟩
      · exact fetchGo_error he (by decide)
      · exact fetchGo_badpage hq hbad (by decide)
    show fetchGo (fetch u) 1 MAX_TRIES = p
    rw [step1, step2]
    exact fetchGo_final_ok hfinal

/-- Witness for C5's amended statement: a URL whose attempts all raise is
recorded as `""`, and a URL whose attempts all return the OOPS page is
recorded with that page's HTML. -/
theorem C5_witness :
    (fetch_detail_pages_html ["a"]
        (fun _ _ => Except.error ())).lookup "a" =
      some (fetch_one_result (fun _ => Except.error ())) ∧
      fetch_one_result (fun _ => Except.error ()) = "" ∧
      fetch_one_result (fun _ => Except.ok oopsPage) = oopsPage :=
  ⟨(C5_fetch_behavior ["a"] (fun _ _ => Except.error ())).1 "a" (by simp),
    (C5_fetch_behavior ["a"] (fun _ _ => Except.error ())).2.2.1 "a"
      (fun _ _ _ => rfl),
    (C5_fetch_behavior ["a"] (fun _ _ => Except.ok oopsPage)).2.2.2 "a"
      oopsPage (fun _ _ _ => Or.inr ⟨oopsPage, rfl, by decide⟩) rfl⟩

/-- Counterexample for C5 as stated: when every attempt is "failed" in the
sense the loop itself uses (an OOPS bot-challenge page, which it retries),
the recorded value is the OOPS page's HTML, not the empty string. -/
theorem C5_counterexample :
    (fetch_detail_pages_html ["u"]
        (fun _ _ => Except.ok oopsPage)).lookup "u" = some oopsPage ∧
      oopsPage ≠ "" := by
  constructor
  · decide
  · decide

/-! ## Lemmas about is_valid_row and process_one -/

theorem append_colon_ne_weak (a b : String) : a ++ ": " ++ b ≠ "weak-signals" := by
  intro hcontra
  have hdata : (a ++ ": " ++ b).data = "weak-signals".data :=
    congrArg String.data hcontra
  simp only [String.data_append] at hdata
  have hmem : ':' ∈ (a.data ++ ": ".data) ++ b.data := by
    apply List.mem_append_left
    apply List.mem_append_right
    decide
  rw [hdata] at hmem
  exact absurd hmem (by decide)

theorem is_valid_row_bad_title (row : Row)
    (hbad : pyStrip row.title = "" ∨
      hasSub "oops".data (lowerStr (pyStrip row.title)).data = true) :
    is_valid_row row = (false, "empty_or_error_title") := by
  unfold is_valid_row
  rcases hbad with hb | hb
  · rw [if_pos]
    simp [hb]
  · rw [if_pos]
    simp [hb]

theorem is_valid_row_false_snd (row : Row) (h : (is_valid_row row).1 = false) :
    (is_valid_row row).2 = "empty_or_error_title" ∨
      (is_valid_row row).2 = "junk_title" ∨
      (is_valid_row row).2 = "no_strong_signals" := by
  simp only [is_valid_row] at h ⊢
  split_ifs at h ⊢ <;> simp_all

theorem is_valid_true_title (row : Row) (h : (is_valid_row row).1 = true) :
    pyStrip row.title ≠ "" ∧ 6 ≤ (pyStrip row.title).length ∧
      hasSub "oops".data (lowerStr (pyStrip row.title)).data = false := by
  simp only [is_valid_row] at h
  split_ifs at h with h1 h2 h3 h4
  · simp only [Bool.or_eq_true, decide_eq_true_eq] at h1
    push_neg at h1
    have h3' := h3
    simp only [Bool.and_eq_true, decide_eq_true_eq] at h3'
    exact ⟨h1.1, h3'.1, by simpa using h1.2⟩
  · simp only [Bool.or_eq_true, decide_eq_true_eq] at h1
    push_neg at h1
    have h4' := h4
    simp only [Bool.and_eq_true, decide_eq_true_eq] at h4'
    exact ⟨h1.1, by omega, by simpa using h1.2⟩

theorem keepRow_statusify (r0 : Row) (h : String)
    (hkeep : keepRow { r0 with
      __status__ := if (is_valid_row r0).1 then "ok" else "dropped"
      __error__ := if (is_valid_row r0).1 then ""
        else if (is_valid_row r0).2 ≠ "" then (is_valid_row r0).2
        else if looks_like_oops_html h then "oops_page" else "unknown" } = true) :
    (is_valid_row r0).1 = true := by
  by_cases hv : (is_valid_row r0).1 = true
  · exact hv
  · exfalso
    have hvf : (is_valid_row r0).1 = false := by simpa using hv
    simp only [keepRow, hvf, Bool.false_eq_true, if_false] at hkeep
    rcases is_valid_row_false_snd r0 hvf with hs | hs | hs <;>
      simp [hs] at hkeep

theorem keepRow_process_one (parse : ParseFun) (u h : String)
    (d : List (String × String))
    (hkeep : keepRow (process_one parse u h d) = true) :
    (is_valid_row (process_one parse u h d)).1 = true := by
  revert hkeep
  simp only [process_one]
  split
  · intro hkeep
    next p _ =>
    exact keepRow_statusify
      { title := stripUsedMarker p.title, tagline := p.tagline
        list_price := p.list_price, payments_from := p.payments_from
        image_url := p.image_url
        payments_disclaimer := (d.lookup (strip_fragment u)).getD ""
        detail_url := u, __status__ := "", __error__ := "" } h hkeep
  · intro hkeep
    next e _ =>
    exfalso
    simp only [keepRow] at hkeep
    have h1 : (("parse_error" == "ok") : Bool) = false := by decide
    have h2 : ((e.name ++ ": " ++ e.msg == "weak-signals") : Bool) = false := by
      simpa using append_colon_ne_weak e.name e.msg
    simp [h1, h2] at hkeep

/-- C2: on any fetch/parse failure — empty HTML, an OOPS bot-challenge page,
or an exception from the parser — `process_one` still returns a record whose
tagline, list price, payments and image fields are empty and whose title is
derived from the last path segment of the URL (hyphens to spaces, `used`
marker stripped; the non-exception path strips the marker a second time). -/
theorem C2_process_one_failure (parse : ParseFun) (u h : String)
    (d : List (String × String))
    (hfail : h = "" ∨ looks_like_oops_html h = true ∨
      ∃ e, parse u h = Except.error e) :
    (process_one parse u h d).tagline = "" ∧
      (process_one parse u h d).list_price = "" ∧
      (process_one parse u h d).payments_from = "" ∧
      (process_one parse u h d).image_url = "" ∧
      ((process_one parse u h d).title =
          stripUsedMarker ((fallback_parsed u).title) ∨
        (process_one parse u h d).title = (fallback_parsed u).title) := by
  by_cases hne : h = ""
  · subst hne
    refine ⟨?_, ?_, ?_, ?_, Or.inl ?_⟩ <;> (simp only [process_one, ne_eq]; rfl)
  · by_cases ho : looks_like_oops_html h = true
    · refine ⟨?_, ?_, ?_, ?_, Or.inl ?_⟩ <;>
        (simp only [process_one, ho, Bool.not_true, Bool.and_false]; rfl)
    · have ho' : looks_like_oops_html h = false := by simpa using ho
      rcases hfail with h1 | h2 | ⟨e, he⟩
      · exact absurd h1 hne
      · rw [h2] at ho'; simp at ho'
      · refine ⟨?_, ?_, ?_, ?_, Or.inr ?_⟩ <;>
          (simp only [process_one, ho', he]; simp [hne])

/-- Witness for C2 at a URL with empty HTML. -/
theorem C2_witness :
    (process_one (fun _ _ => Except.error ⟨"RuntimeError", "boom"⟩) url0 "" []).tagline = "" ∧
      (process_one (fun _ _ => Except.error ⟨"RuntimeError", "boom"⟩) url0 "" []).list_price = "" ∧
      (process_one (fun _ _ => Except.error ⟨"RuntimeError", "boom"⟩) url0 "" []).payments_from = "" ∧
      (process_one (fun _ _ => Except.error ⟨"RuntimeError", "boom"⟩) url0 "" []).image_url = "" ∧
      ((process_one (fun _ _ => Except.error ⟨"RuntimeError", "boom"⟩) url0 "" []).title =
          stripUsedMarker ((fallback_parsed url0).title) ∨
        (process_one (fun _ _ => Except.error ⟨"RuntimeError", "boom"⟩) url0 "" []).title =
          (fallback_parsed url0).title) :=
  C2_process_one_failure (fun _ _ => Except.error ⟨"RuntimeError", "boom"⟩) url0 "" []
    (Or.inl rfl)

/-- C3: `is_valid_row` returns `False` whenever the whitespace-stripped
title is empty or contains `oops` case-insensitively, and `run_scrape`'s
keep predicate then excludes the assembled row from the output table. -/
theorem C3_bad_title_rejected :
    (∀ row : Row,
        (pyStrip row.title = "" ∨
          hasSub "oops".data (lowerStr (pyStrip row.title)).data = true) →
        (is_valid_row row).1 = false) ∧
      (∀ (parse : ParseFun) (u h : String) (d : List (String × String)),
        (pyStrip (process_one parse u h d).title = "" ∨
          hasSub "oops".data
            (lowerStr (pyStrip (process_one parse u h d).title)).data = true) →
        keepRow (process_one parse u h d) = false) := by
  constructor
  · intro row hbad
    rw [is_valid_row_bad_title row hbad]
  · intro parse u h d hbad
    by_cases hk : keepRow (process_one parse u h d) = true
    · have hv := keepRow_process_one parse u h d hk
      rw [is_valid_row_bad_title _ hbad] at hv
      simp at hv
    · simpa using hk

/-- Witness for C3 on a row whose stripped title is the OOPS marker. -/
theorem C3_witness :
    (is_valid_row
        { title := " oops ", tagline := "", list_price := "$5",
          payments_from := "", image_url := "", payments_disclaimer := "",
          detail_url := "", __status__ := "", __error__ := "" }).1 = false ∧
      keepRow (process_one parse0 "" "" []) = false :=
  ⟨C3_bad_title_rejected.1 _ (Or.inr (by decide)),
    C3_bad_title_rejected.2 parse0 "" "" [] (Or.inl (by decide))⟩

/-- C7: `process_one` merges its sources as claimed: the disclaimer field is
the disclaimer map's entry at `strip_fragment u` (empty when absent), the
detail URL is `u` unchanged, and the remaining fields are those of the parse
result (title with the `used` marker stripped) or of the URL-slug fallback
when the HTML is empty, an OOPS page, or the parser raises. -/
theorem C7_process_one_merge (parse : ParseFun) (u h : String)
    (d : List (String × String)) :
    (process_one parse u h d).payments_disclaimer =
        ((d.lookup (strip_fragment u)).getD "") ∧
      (process_one parse u h d).detail_url = u ∧
      (∀ p, h ≠ "" → looks_like_oops_html h = false → parse u h = Except.ok p →
        (process_one parse u h d).tagline = p.tagline ∧
          (process_one parse u h d).list_price = p.list_price ∧
          (process_one parse u h d).payments_from = p.payments_from ∧
          (process_one parse u h d).image_url = p.image_url ∧
          (process_one parse u h d).title = stripUsedMarker p.title) ∧
      ((h = "" ∨ looks_like_oops_html h = true) →
        (process_one parse u h d).tagline = "" ∧
          (process_one parse u h d).list_price = "" ∧
          (process_one parse u h d).payments_from = "" ∧
          (process_one parse u h d).image_url = "" ∧
          (process_one parse u h d).title =
            stripUsedMarker ((fallback_parsed u).title)) ∧
      (∀ e, h ≠ "" → looks_like_oops_html h = false →
        parse u h = Except.error e →
        (process_one parse u h d).tagline = "" ∧
          (process_one parse u h d).list_price = "" ∧
          (process_one parse u h d).payments_from = "" ∧
          (process_one parse u h d).image_url = "" ∧
          (process_one parse u h d).title = (fallback_parsed u).title) := by
  refine ⟨?_, ?_, ?_, ?_, ?_⟩
  · simp only [process_one]; split <;> rfl
  · simp only [process_one]; split <;> rfl
  · intro p hne ho hp
    refine ⟨?_, ?_, ?_, ?_, ?_⟩ <;>
      (simp only [process_one, ho, hp]; simp [hne])
  · intro hcase
    rcases hcase with rfl | ho
    · refine ⟨?_, ?_, ?_, ?_, ?_⟩ <;> (simp only [process_one, ne_eq]; rfl)
    · refine ⟨?_, ?_, ?_, ?_, ?_⟩ <;>
        (simp only [process_one, ho, Bool.not_true, Bool.and_false]; rfl)
  · intro e hne ho he
    refine ⟨?_, ?_, ?_, ?_, ?_⟩ <;>
      (simp only [process_one, ho, he]; simp [hne])

/-- Witness for C7 on a successfully parsed page with a present disclaimer
entry. -/
theorem C7_witness :
    (process_one parse0 url0 "<html>x</html>" [(strip_fragment url0, "disc")]).payments_disclaimer =
        ((([(strip_fragment url0, "disc")] : List (String × String)).lookup
          (strip_fragment url0)).getD "") ∧
      (process_one parse0 url0 "<html>x</html>" [(strip_fragment url0, "disc")]).detail_url = url0 ∧
      (process_one parse0 url0 "<html>x</html>" [(strip_fragment url0, "disc")]).title =
        stripUsedMarker "Cool RV 2020" := by
  have h := C7_process_one_merge parse0 url0 "<html>x</html>"
    [(strip_fragment url0, "disc")]
  have h3 := h.2.2.1 (⟨"Cool RV 2020", "", "$9,999", "", ""⟩ : Parsed)
    (by decide) (by decide) rfl
  exact ⟨h.1, h.2.1, h3.2.2.2.2⟩

/-! ## C10: detail-URL collection -/

theorem process_one_detail_url (parse : ParseFun) (u h : String)
    (d : List (String × String)) : (process_one parse u h d).detail_url = u := by
  simp only [process_one]
  split <;> rfl

theorem mem_filter_detail_urls :
    ∀ (l acc : List String),
      (∀ y ∈ acc, _looks_like_product_detail y = true) →
      ∀ x ∈ l.foldl
        (fun acc u =>
          let su := strip_fragment u
          if su = "" then acc
          else if _looks_like_product_detail su && !acc.contains su
          then acc ++ [su] else acc) acc,
      _looks_like_product_detail x = true := by
  intro l
  induction l with
  | nil => intro acc hacc x hx; exact hacc x hx
  | cons u us ih =>
    intro acc hacc x hx
    rw [List.foldl_cons] at hx
    refine ih _ ?_ x hx
    intro y hy
    by_cases h1 : strip_fragment u = ""
    · simp only [h1, if_pos rfl] at hy
      exact hacc y (by simpa using hy)
    · simp only [if_neg h1] at hy
      by_cases h2 : (_looks_like_product_detail (strip_fragment u)
          && !acc.contains (strip_fragment u)) = true
      · rw [if_pos h2] at hy
        rcases List.mem_append.mp hy with hy1 | hy1
        · exact hacc y hy1
        · have : y = strip_fragment u := by simpa using hy1
          subst this
          simp only [Bool.and_eq_true] at h2
          exact h2.1
      · rw [if_neg h2] at hy
        exact hacc y hy

theorem mem_unionFold :
    ∀ (l acc : List String),
      ∀ x ∈ l.foldl (fun a u => if a.contains u then a else a ++ [u]) acc,
        x ∈ acc ∨ x ∈ l := by
  intro l
  induction l with
  | nil => intro acc x hx; exact Or.inl hx
  | cons u us ih =>
    intro acc x hx
    rw [List.foldl_cons] at hx
    rcases ih _ x hx with h1 | h1
    · by_cases hc : acc.contains u = true
      · rw [if_pos hc] at h1; exact Or.inl h1
      · rw [if_neg hc] at h1
        rcases List.mem_append.mp h1 with h2 | h2
        · exact Or.inl h2
        · have hxu : x = u := by simpa using h2
          subst hxu
          exact Or.inr (List.mem_cons_self x us)
    · exact Or.inr (List.mem_cons_of_mem u h1)

theorem nodup_unionFold :
    ∀ (l acc : List String), acc.Nodup →
      (l.foldl (fun a u => if a.contains u then a else a ++ [u]) acc).Nodup := by
  intro l
  induction l with
  | nil => intro acc hacc; exact hacc
  | cons u us ih =>
    intro acc hacc
    rw [List.foldl_cons]
    apply ih
    by_cases hc : acc.contains u = true
    · rw [if_pos hc]; exact hacc
    · rw [if_neg hc]
      have hnotmem : u ∉ acc := by
        intro hmem
        exact hc (by simpa [List.contains] using List.elem_iff.mpr hmem)
      simp [List.nodup_append, hacc, hnotmem]

theorem collectGo_looks (pages : Nat → List String) :
    ∀ (fuel pageNum : Nat) (acc : List String),
      (∀ y ∈ acc, _looks_like_product_detail y = true) →
      ∀ x ∈ collectGo pages fuel pageNum acc, _looks_like_product_detail x = true := by
  intro fuel
  induction fuel with
  | zero => intro pageNum acc hacc x hx; exact hacc x hx
  | succ f ih =>
    intro pageNum acc hacc x hx
    simp only [collectGo] at hx
    have hacc2 : ∀ y ∈ (_filter_detail_urls (pages pageNum)).foldl
        (fun a u => if a.contains u then a else a ++ [u]) acc,
        _looks_like_product_detail y = true := by
      intro y hy
      rcases mem_unionFold _ acc y hy with h1 | h1
      · exact hacc y h1
      · exact mem_filter_detail_urls (pages pageNum) [] (by simp) y h1
    split at hx
    · exact hacc2 x hx
    · exact ih _ _ hacc2 x hx

theorem collectGo_nodup (pages : Nat → List String) :
    ∀ (fuel pageNum : Nat) (acc : List String), acc.Nodup →
      (collectGo pages fuel pageNum acc).Nodup := by
  intro fuel
  induction fuel with
  | zero => intro pageNum acc hacc; exact hacc
  | succ f ih =>
    intro pageNum acc hacc
    simp only [collectGo]
    have hacc2 := nodup_unionFold (_filter_detail_urls (pages pageNum)) acc hacc
    split
    · exact hacc2
    · exact ih _ _ hacc2

/-- C10: the collected detail-URL list is sorted, duplicate-free, and every
element passes `_looks_like_product_detail` (a `parrisrv.com` host, a
`/product/used-` path segment with at least two hyphens, no image-file
suffix, and not the bare `/product/used` page). -/
theorem C10_collect_detail_urls (pages : Nat → List String) (max_pages : Nat) :
    (collect_detail_urls pages max_pages).Sorted (· ≤ ·) ∧
      (collect_detail_urls pages max_pages).Nodup ∧
      ∀ u ∈ collect_detail_urls pages max_pages,
        _looks_like_product_detail u = true := by
  refine ⟨List.sorted_insertionSort _ _, ?_, ?_⟩
  · exact (List.perm_insertionSort _ _).nodup_iff.mpr
      (collectGo_nodup pages max_pages 1 [] List.nodup_nil)
  · intro u hu
    exact collectGo_looks pages max_pages 1 [] (by simp) u
      ((List.mem_insertionSort (· ≤ ·)).mp hu)

/-- Witness for C10: the concrete single-page run keeps `url0`, which passes
the detail filter. -/
theorem C10_witness : _looks_like_product_detail url0 = true :=
  (C10_collect_detail_urls pages0 1).2.2 url0 (by decide)

/-! ## C4: the kept-row invariant, and C1: the output columns -/

/-- C4: every row kept by `run_scrape` has a non-empty title of length at
least 6 not containing `oops` (case-insensitively), and a non-empty
`detail_url` equal to the collected detail URL the row was assembled
from. -/
theorem C4_kept_rows (parse : ParseFun) (pages : Nat → List String)
    (max_pages : Nat) (html_map disc_map : List (String × String)) (r : Row)
    (hr : r ∈ run_scrape_kept parse pages max_pages html_map disc_map) :
    r.title ≠ "" ∧ 6 ≤ r.title.length ∧
      hasSub "oops".data (lowerStr r.title).data = false ∧
      r.detail_url ≠ "" ∧
      ∃ u, u ∈ collect_detail_urls pages max_pages ∧
        r = process_one parse u ((html_map.lookup u).getD "") disc_map ∧
        r.detail_url = u := by
  rw [run_scrape_kept, List.mem_filter] at hr
  obtain ⟨hmem, hkeep⟩ := hr
  rw [run_scrape_rows, List.mem_map] at hmem
  obtain ⟨u, hu, hfu⟩ := hmem
  subst hfu
  have hvalid := keepRow_process_one parse u _ disc_map hkeep
  have tt := is_valid_true_title _ hvalid
  have hlooks := (C10_collect_detail_urls pages max_pages).2.2 u hu
  have hune : u ≠ "" := by
    intro hu0
    rw [hu0] at hlooks
    exact absurd hlooks (by decide)
  refine ⟨?_, ?_, ?_, ?_, u, hu, rfl, process_one_detail_url parse u _ disc_map⟩
  · intro h0
    apply tt.1
    rw [h0]
    rfl
  · have hle : (pyStrip (process_one parse u ((html_map.lookup u).getD "")
        disc_map).title).length ≤ (process_one parse u ((html_map.lookup u).getD "")
        disc_map).title.length := by
      show (pyStripList _).length ≤ _
      exact (length_pyStripList_le _).trans (le_of_eq rfl)
    omega
  · by_cases hoops : hasSub "oops".data
        (lowerStr (process_one parse u ((html_map.lookup u).getD "")
          disc_map).title).data = true
    · exfalso
      have := hasSub_lower_strip (t := "oops".data) (by decide) (by decide)
        (process_one parse u ((html_map.lookup u).getD "") disc_map).title.data
        hoops
      have this2 : hasSub "oops".data
          (lowerStr (pyStrip (process_one parse u
            ((html_map.lookup u).getD "") disc_map).title)).data = true := this
      rw [tt.2.2] at this2
      simp at this2
    · simpa using hoops
  · rw [process_one_detail_url parse u _ disc_map]
    exact hune

/-- Witness for C4 on the concrete single-URL run. -/
theorem C4_witness :
    row0.title ≠ "" ∧ 6 ≤ row0.title.length ∧
      hasSub "oops".data (lowerStr row0.title).data = false ∧
      row0.detail_url ≠ "" ∧
      ∃ u, u ∈ collect_detail_urls pages0 1 ∧
        row0 = process_one parse0 u ((hm0.lookup u).getD "") [] ∧
        row0.detail_url = u :=
  C4_kept_rows parse0 pages0 1 hm0 [] row0 (by decide)

/-- C1 as amended: whenever at least one row is kept, the table returned by
`run_scrape` has the seven record-type columns followed by the bookkeeping
columns `__status__` and `__error__`; with no kept rows the DataFrame has no
columns at all.  (The CSV download serialises exactly these columns.) -/
theorem C1_run_scrape_columns (parse : ParseFun) (pages : Nat → List String)
    (max_pages : Nat) (html_map disc_map : List (String × String)) :
    (run_scrape_kept parse pages max_pages html_map disc_map = [] →
        (run_scrape_table parse pages max_pages html_map disc_map).1 = []) ∧
      (run_scrape_kept parse pages max_pages html_map disc_map ≠ [] →
        (run_scrape_table parse pages max_pages html_map disc_map).1 =
          record_cols ++ ["__status__", "__error__"]) := by
  constructor
  · intro hempty
    simp [run_scrape_table, hempty]
  · intro hne
    have : (run_scrape_kept parse pages max_pages html_map disc_map).isEmpty = false := by
      simpa [List.isEmpty_iff] using hne
    simp only [run_scrape_table, this, Bool.false_eq_true, if_false]
    decide

/-- Witness for C1's amended statement on the concrete run with one kept
row. -/
theorem C1_witness :
    (run_scrape_table parse0 pages0 1 hm0 []).1 =
      record_cols ++ ["__status__", "__error__"] :=
  (C1_run_scrape_columns parse0 pages0 1 hm0 []).2 (by decide)

/-- Counterexample for C1 as stated: the concrete run returns a table whose
column list is `out_cols`, which is not the seven-column record set — the
code appends `__status__` and `__error__`. -/
theorem C1_counterexample :
    (run_scrape_table parse0 pages0 1 hm0 []).1 = out_cols ∧
      out_cols ≠ record_cols := by
  constructor
  · decide
  · decide

/-! ## C9: amount_near_label with the /mo suffix -/

theorem matchMoneyAt_parts {l m rest : List Char}
    (h : matchMoneyAt l = some (m, rest)) :
    (∃ tl, m = '$' :: tl) ∧ m ++ rest = l := by
  cases l with
  | nil => simp [matchMoneyAt] at h
  | cons c r1 =>
    by_cases hc : c = '$'
    · subst hc
      have e1 : List.takeWhile isPySpace r1 ++ List.dropWhile isPySpace r1 = r1 :=
        List.takeWhile_append_dropWhile _ _
      have e2 : List.takeWhile isMoneyDigit (List.dropWhile isPySpace r1) ++
          List.dropWhile isMoneyDigit (List.dropWhile isPySpace r1) =
          List.dropWhile isPySpace r1 := List.takeWhile_append_dropWhile _ _
      simp only [matchMoneyAt] at h
      split_ifs at h with h1
      split at h
      next d1 d2 r4 heq =>
        split_ifs at h with h2
        · simp only [Option.some.injEq, Prod.mk.injEq] at h
          refine ⟨⟨_, h.1.symm⟩, ?_⟩
          rw [← h.1, ← h.2]
          simp only [List.cons_append, List.append_assoc, List.nil_append]
          rw [← heq, e2, e1]
        · simp only [Option.some.injEq, Prod.mk.injEq] at h
          refine ⟨⟨_, h.1.symm⟩, ?_⟩
          rw [← h.1, ← h.2]
          simp only [List.cons_append, List.append_assoc]
          rw [e2, e1]
      next hno =>
        simp only [Option.some.injEq, Prod.mk.injEq] at h
        refine ⟨⟨_, h.1.symm⟩, ?_⟩
        rw [← h.1, ← h.2]
        simp only [List.cons_append, List.append_assoc]
        rw [e2, e1]
    · simp [matchMoneyAt, hc] at h

theorem removeSpaces_dollar {tl : List Char} :
    leadsWith "$".data (removeSpacesStr ⟨'$' :: tl⟩).data = true := by
  have h1 : "$".data = ['$'] := rfl
  have h2 : (removeSpacesStr ⟨'$' :: tl⟩).data =
      List.filter (fun c => decide (c ≠ ' ')) ('$' :: tl) := rfl
  rw [h1, h2, List.filter_cons_of_pos (by decide)]
  simp [leadsWith]

theorem removeSpaces_no_space (s : String) :
    (removeSpacesStr s).data.contains ' ' = false := by
  by_contra hcon
  have h1 : (removeSpacesStr s).data.contains ' ' = true := by
    simpa using hcon
  have hmem : ' ' ∈ (removeSpacesStr s).data := List.elem_iff.mp h1
  have h2 := (List.mem_filter.mp hmem).2
  simp at h2

theorem slashMoAt_extend {u v : List Char} (h : slashMoAt u = true) :
    slashMoAt (u ++ v) = true := by
  cases u with
  | nil => simp [slashMoAt] at h
  | cons c r =>
    by_cases hc : c = '/'
    · subst hc
      simp only [slashMoAt] at h
      simp only [List.cons_append, slashMoAt]
      cases hd : r.dropWhile isPySpace with
      | nil => rw [hd] at h; simp at h
      | cons a rt =>
        cases rt with
        | nil => rw [hd] at h; simp at h
        | cons b rt2 =>
          rw [hd] at h
          have hne : ¬ (r.dropWhile isPySpace).isEmpty = true := by
            rw [hd]; simp
          rw [List.dropWhile_append, if_neg hne, hd]
          exact h
    · simp [slashMoAt, hc] at h

theorem searchSlashMoIn_exists {w : List Char} (h : searchSlashMoIn w = true) :
    ∃ p, p < w.length ∧ slashMoAt (w.drop p) = true := by
  induction w with
  | nil => simp [searchSlashMoIn] at h
  | cons c rest ih =>
    simp only [searchSlashMoIn, Bool.or_eq_true] at h
    rcases h with h | h
    · exact ⟨0, by simp, by simpa using h⟩
    · obtain ⟨p, hp, hs⟩ := ih h
      exact ⟨p + 1, by simpa using hp, by simpa using hs⟩

theorem slashMo_window {after : List Char}
    (h : searchSlashMoIn (after.take 20) = true) :
    ∃ j, j ≤ 20 ∧ slashMoAt (after.drop j) = true := by
  obtain ⟨p, hp, hs⟩ := searchSlashMoIn_exists h
  have hp20 : p ≤ 20 := by
    have := List.length_take_le 20 after
    omega
  have hple : p ≤ (after.take 20).length := le_of_lt hp
  refine ⟨p, hp20, ?_⟩
  have hsplit : after.drop p = (after.take 20).drop p ++ after.drop 20 := by
    conv_lhs => rw [← List.take_append_drop 20 after]
    exact List.drop_append_of_le_length hple
  rw [hsplit]
  exact slashMoAt_extend hs

theorem matchMoneyMoAt_parts {l m : List Char}
    (h : matchMoneyMoAt l = some m) :
    ∃ m0 rest, matchMoneyAt l = some (m0, rest) ∧
      m = m0 ++ rest.takeWhile isPySpace ∧
      slashMoAt (rest.dropWhile isPySpace) = true := by
  unfold matchMoneyMoAt at h
  cases hm : matchMoneyAt l with
  | none => rw [hm] at h; simp at h
  | some pr =>
    obtain ⟨m0, rest⟩ := pr
    rw [hm] at h
    have h' : (if slashMoAt (List.dropWhile isPySpace rest) = true
        then some (m0 ++ List.takeWhile isPySpace rest) else none) = some m := h
    split_ifs at h' with hs
    simp only [Option.some.injEq] at h'
    exact ⟨m0, rest, rfl, h'.symm, hs⟩

theorem searchMoneyMoFrom_exists {l m : List Char}
    (h : searchMoneyMoFrom l = some m) :
    ∃ i, matchMoneyMoAt (l.drop i) = some m := by
  induction l with
  | nil => simp [searchMoneyMoFrom] at h
  | cons c rest ih =>
    simp only [searchMoneyMoFrom] at h
    cases hm : matchMoneyMoAt (c :: rest) with
    | some m0 =>
      rw [hm] at h
      simp only [Option.some.injEq] at h
      exact ⟨0, by rw [List.drop_zero, hm, h]⟩
    | none =>
      rw [hm] at h
      obtain ⟨i, hi⟩ := ih h
      exact ⟨i + 1, by simpa using hi⟩

theorem finditerMoneyGo_mem :
    ∀ (fuel : Nat) (l m after : List Char),
      (m, after) ∈ finditerMoneyGo fuel l →
      ∃ i, matchMoneyAt (l.drop i) = some (m, after) := by
  intro fuel
  induction fuel with
  | zero => intro l m after h; simp [finditerMoneyGo] at h
  | succ f ih =>
    intro l m after h
    cases l with
    | nil => simp [finditerMoneyGo] at h
    | cons c rest =>
      simp only [finditerMoneyGo] at h
      cases hm : matchMoneyAt (c :: rest) with
      | some pr =>
        rw [hm] at h
        rcases List.mem_cons.mp h with heq | htail
        · refine ⟨0, ?_⟩
          rw [List.drop_zero, hm]
          simp only [Prod.mk.injEq] at heq
          rw [heq.1, heq.2]
        · obtain ⟨i, hi⟩ := ih pr.2 m after htail
          have happ : pr.1 ++ pr.2 = c :: rest := (matchMoneyAt_parts hm).2
          have hdrop : pr.2 = (c :: rest).drop pr.1.length := by
            rw [← happ, List.drop_left]
          refine ⟨pr.1.length + i, ?_⟩
          rw [← List.drop_drop, ← hdrop]
          exact hi
      | none =>
        rw [hm] at h
        obtain ⟨i, hi⟩ := ih rest m after h
        exact ⟨i + 1, by simpa using hi⟩

theorem insertDesc_perm {α : Type} (key : α → Nat) (x : α) :
    ∀ l : List α, List.Perm (insertDescAfterTies key x l) (x :: l) := by
  intro l
  induction l with
  | nil => simp [insertDescAfterTies]
  | cons y ys ih =>
    simp only [insertDescAfterTies]
    by_cases hk : key x ≤ key y
    · rw [if_pos hk]
      exact (ih.cons y).trans (List.Perm.swap x y ys)
    · rw [if_neg hk]

theorem pyStableSortDesc_foldl_perm {α : Type} (key : α → Nat) :
    ∀ (l acc : List α),
      List.Perm (l.foldl (fun ac x => insertDescAfterTies key x ac) acc)
        (l ++ acc) := by
  intro l
  induction l with
  | nil => intro acc; simp
  | cons x xs ih =>
    intro acc
    rw [List.foldl_cons]
    refine ((ih _).trans ?_)
    refine (List.Perm.append_left xs (insertDesc_perm key x acc)).trans ?_
    exact List.perm_middle

theorem sort_head_mem {α : Type} (key : α → Nat) (l : List α) (v : α)
    (rest : List α) (h : pyStableSortDesc key l = v :: rest) : v ∈ l := by
  have hperm : List.Perm (pyStableSortDesc key l) (l ++ []) :=
    pyStableSortDesc_foldl_perm key l []
  have hv : v ∈ pyStableSortDesc key l := by
    rw [h]; exact List.mem_cons_self _ _
  have := hperm.mem_iff.mp hv
  simpa using this

theorem boxCandidates_mo_mem {t : List Char} {v : String}
    (hv : v ∈ boxCandidates true t) :
    ∃ m after, (m, after) ∈ finditerMoney t ∧
      searchSlashMoIn (after.take 20) = true ∧ v = removeSpacesStr ⟨m⟩ := by
  have hgen : ∀ L : List (List Char × List Char),
      v ∈ L.foldr (fun p acc =>
        if searchSlashMoIn (p.2.take 20) then removeSpacesStr ⟨p.1⟩ :: acc
        else acc) [] →
      ∃ m after, (m, after) ∈ L ∧ searchSlashMoIn (after.take 20) = true ∧
        v = removeSpacesStr ⟨m⟩ := by
    intro L
    induction L with
    | nil => intro hL; simp at hL
    | cons p L' ih =>
      intro hL
      rw [List.foldr_cons] at hL
      by_cases hw : searchSlashMoIn (p.2.take 20) = true
      · rw [if_pos hw] at hL
        rcases List.mem_cons.mp hL with heq | htail
        · exact ⟨p.1, p.2, List.mem_cons_self _ _, hw, heq⟩
        · obtain ⟨m, after, hmem, hw2, heq2⟩ := ih htail
          exact ⟨m, after, List.mem_cons_of_mem _ hmem, hw2, heq2⟩
      · rw [if_neg hw] at hL
        obtain ⟨m, after, hmem, hw2, heq2⟩ := ih hL
        exact ⟨m, after, List.mem_cons_of_mem _ hmem, hw2, heq2⟩
  exact hgen (finditerMoney t) hv

theorem closest_mo_spec {text : String} {lab : Lab}
    (hne : _closest_amount_after_label text lab true ≠ "") :
    leadsWith "$".data (_closest_amount_after_label text lab true).data = true ∧
      (_closest_amount_after_label text lab true).data.contains ' ' = false ∧
      ∃ i m, matchMoneyMoAt ((clean_text text).data.drop i) = some m ∧
        _closest_amount_after_label text lab true = removeSpacesStr ⟨m⟩ := by
  by_cases ht : clean_text text = ""
  · exact absurd (by simp [_closest_amount_after_label, ht]) hne
  · cases hlab : lab (clean_text text) with
    | none => exact absurd (by simp [_closest_amount_after_label, ht, hlab]) hne
    | some e =>
      cases hsearch : searchMoneyMoFrom ((clean_text text).data.drop e) with
      | none =>
        exact absurd
          (by simp [_closest_amount_after_label, ht, hlab, hsearch]) hne
      | some m =>
        have hval : _closest_amount_after_label text lab true =
            removeSpacesStr ⟨m⟩ := by
          simp [_closest_amount_after_label, ht, hlab, hsearch]
        obtain ⟨i, hi⟩ := searchMoneyMoFrom_exists hsearch
        have hglobal : matchMoneyMoAt ((clean_text text).data.drop (e + i)) =
            some m := by
          rw [← List.drop_drop]; exact hi
        obtain ⟨m0, rest, hm0, hmeq, _⟩ := matchMoneyMoAt_parts hglobal
        obtain ⟨⟨tl, htl⟩, _⟩ := matchMoneyAt_parts hm0
        rw [hval]
        refine ⟨?_, removeSpaces_no_space _, e + i, m, hglobal, rfl⟩
        rw [hmeq, htl, List.cons_append]
        exact removeSpaces_dollar

theorem amount_for_boxes_spec {lab : Lab} {boxes : List PBox} {a : String}
    (hab : amount_for_boxes lab true boxes = some a) :
    leadsWith "$".data a.data = true ∧ a.data.contains ' ' = false ∧
      ∃ b, b ∈ boxes ∧
        ((∃ i m, matchMoneyMoAt ((clean_text b.text).data.drop i) = some m ∧
            a = removeSpacesStr ⟨m⟩) ∨
          (∃ i m rest, matchMoneyAt (b.text.data.drop i) = some (m, rest) ∧
            a = removeSpacesStr ⟨m⟩ ∧
            ∃ j, j ≤ 20 ∧ slashMoAt (rest.drop j) = true)) := by
  induction boxes with
  | nil => simp [amount_for_boxes] at hab
  | cons b bs ih =>
    simp only [amount_for_boxes] at hab
    by_cases hbl : is_blocklisted b.classes = true
    · rw [if_pos hbl] at hab
      obtain ⟨h1, h2, b', hb', hev⟩ := ih hab
      exact ⟨h1, h2, b', List.mem_cons_of_mem _ hb', hev⟩
    · rw [if_neg hbl] at hab
      by_cases hamt : _closest_amount_after_label b.text lab true ≠ ""
      · rw [if_pos hamt] at hab
        simp only [Option.some.injEq] at hab
        obtain ⟨hl, hc, i, m, hm, heqv⟩ := closest_mo_spec hamt
        exact ⟨hab ▸ hl, hab ▸ hc, b, List.mem_cons_self _ _,
          Or.inl ⟨i, m, hm, hab ▸ heqv⟩⟩
      · rw [if_neg hamt] at hab
        cases hsort : pyStableSortDesc toNumCents (boxCandidates true b.text.data) with
        | nil =>
          rw [hsort] at hab
          obtain ⟨h1, h2, b', hb', hev⟩ := ih hab
          exact ⟨h1, h2, b', List.mem_cons_of_mem _ hb', hev⟩
        | cons v vrest =>
          rw [hsort] at hab
          simp only [Option.some.injEq] at hab
          have hvmem : v ∈ boxCandidates true b.text.data :=
            sort_head_mem toNumCents _ v vrest hsort
          obtain ⟨m, after, hfm, hw, hveq⟩ := boxCandidates_mo_mem hvmem
          obtain ⟨i, hi⟩ := finditerMoneyGo_mem b.text.data.length b.text.data
            m after hfm
          obtain ⟨j, hj, hsl⟩ := slashMo_window hw
          obtain ⟨⟨tl, htl⟩, _⟩ := matchMoneyAt_parts hi
          refine ⟨?_, ?_, b, List.mem_cons_self _ _,
            Or.inr ⟨i, m, after, hi, ?_, j, hj, hsl⟩⟩
          · rw [← hab, hveq, htl]; exact removeSpaces_dollar
          · rw [← hab, hveq]; exact removeSpaces_no_space _
          · rw [← hab, hveq]

/-- C9 as amended: with `mo_suffix=True`, `amount_near_label` returns either
`""` or a string that begins with `$` and contains no space character; every
nonempty return value is the space-stripped text of a money-pattern match in
the cleaned or raw text of a visited box, and that match is followed by a
`/mo` marker either immediately after optional whitespace (the primary
closest-match path) or within the 20 characters after the match (the in-box
fallback path). -/
theorem C9_amount_near_label_mo (doc : List (Lab × List PBox)) :
    amount_near_label doc true = "" ∨
      (leadsWith "$".data (amount_near_label doc true).data = true ∧
        (amount_near_label doc true).data.contains ' ' = false ∧
        ∃ t, docHasText doc t ∧
          ((∃ i m, matchMoneyMoAt (t.drop i) = some m ∧
              amount_near_label doc true = removeSpacesStr ⟨m⟩) ∨
            (∃ i m rest, matchMoneyAt (t.drop i) = some (m, rest) ∧
              amount_near_label doc true = removeSpacesStr ⟨m⟩ ∧
              ∃ j, j ≤ 20 ∧ slashMoAt (rest.drop j) = true))) := by
  induction doc with
  | nil => exact Or.inl rfl
  | cons lb rest ih =>
    obtain ⟨lab, boxes⟩ := lb
    simp only [amount_near_label]
    cases hab : amount_for_boxes lab true boxes with
    | some a =>
      right
      obtain ⟨h1, h2, b, hb, hev⟩ := amount_for_boxes_spec hab
      refine ⟨h1, h2, ?_⟩
      rcases hev with ⟨i, m, hm, heq⟩ | ⟨i, m, r2, hm, heq, j, hj, hs⟩
      · exact ⟨(clean_text b.text).data,
          ⟨(lab, boxes), List.mem_cons_self _ _, b, hb, Or.inr rfl⟩,
          Or.inl ⟨i, m, hm, heq⟩⟩
      · exact ⟨b.text.data,
          ⟨(lab, boxes), List.mem_cons_self _ _, b, hb, Or.inl rfl⟩,
          Or.inr ⟨i, m, r2, hm, heq, j, hj, hs⟩⟩
    | none =>
      rcases ih with h0 | ⟨h1, h2, t, ⟨lb', hlb', hbt⟩, hev⟩
      · exact Or.inl h0
      · exact Or.inr ⟨h1, h2, t, ⟨lb', List.mem_cons_of_mem _ hlb', hbt⟩, hev⟩

/-- Counterexample for C9 as stated: in `doc9` the returned amount `$999` is
not the space-stripped text of any money match accepted by the immediate
`/mo` lookahead, in either the raw or the cleaned box text — the `/mo` that
admitted it sits ten characters later, inside `/more`. -/
theorem C9_counterexample :
    amount_near_label doc9 true = "$999" ∧ ("$999" : String) ≠ "" ∧
      texts9.all (fun t => !immediateMoWitness t "$999") = true := by
  refine ⟨by decide, by decide, by decide⟩
